import Mathlib

/-!
Shallow embedding of the layout core of `src/src/JobPostImageGenerator.jsx`
(word wrapper, paragraph fitter, table fitter, raw-text parser), together
with theorems settling the specification claims about it.

Modelling conventions:
* JS strings are `List Char` (`Str`); `for (const ch of t)` is list recursion.
* The canvas text measurer (`ctx.measureText(...).width`) is an abstract
  function `Measurer : FontSpec → Str → ℚ`; a `FontSpec` is the weight/size
  pair that the source writes into `ctx.font` before measuring (the family
  string only affects which host font is used, so it is absorbed into the
  abstract measurer).  Widths and the `maxW` bounds are rationals (JS floats
  form a subset of `ℚ`).
* Pixel sizes searched over are naturals; heights are integers
  (`tableBoxH` in the source can be negative); `Math.ceil`/`Math.round`
  become `ceilQ` / `jsRound` on `ℚ`, proved equal to the mathematical
  `⌈·⌉` / `⌊· + 1/2⌋` by the bridge lemmas at the end of the definitions.
* The `while (lo <= hi)` loops become well-founded recursion on `hi + 1 - lo`;
  the branch `hi = mid - 1` with `mid = 0` makes the JS loop exit
  (`hi = -1 < lo`), which the embedding renders as an explicit early return.
-/

namespace JobImage

/-- JS strings, modelled as lists of characters. -/
abbrev Str := List Char

/-- The whitespace class of the tokenizing regex `/\s+/`. -/
def isWS (c : Char) : Bool := c.isWhitespace

/-- What the source writes into `ctx.font` before measuring: a CSS weight
(400 when the template has no weight prefix, 600/700 otherwise) and a pixel
size. -/
structure FontSpec where
  weight : Nat
  size : Nat
deriving DecidableEq, Repr

/-- The injected text-measuring capability
(`ctx.measureText(s).width` under a given `ctx.font`). -/
abbrev Measurer := FontSpec → Str → ℚ

/-- `tokenizeWords`: `(text || "").split(/\s+/).filter(Boolean)`.
Structural accumulator version (the accumulator holds the current word
reversed) so that it evaluates by kernel reduction. -/
def wordsAux : Str → Str → List Str
  | [], acc => if acc = [] then [] else [acc.reverse]
  | c :: cs, acc =>
    if isWS c then
      (if acc = [] then wordsAux cs [] else acc.reverse :: wordsAux cs [])
    else wordsAux cs (c :: acc)

/-- The whitespace-separated tokens of a string. -/
def words (s : Str) : List Str := wordsAux s []

/-- The inner character-splitting loop of `wrapByWidth` (the
`for (const ch of t)` loop): given the remaining characters and the current
`chunk`, returns the list of chunks pushed onto `lines` and the final value
of `chunk`. -/
def splitChars (m : Str → ℚ) (maxW : ℚ) : Str → Str → List Str × Str
  | [], chunk => ([], chunk)
  | c :: cs, chunk =>
    let test2 := chunk ++ [c]
    if m test2 ≤ maxW then splitChars m maxW cs test2
    else
      let r := splitChars m maxW cs [c]
      (if chunk = [] then r.1 else chunk :: r.1, r.2)

/-- The main token loop of `wrapByWidth`: remaining tokens plus the current
`line`, returning the lines pushed from this point on (including the final
`if (line) lines.push(line)`). -/
def wrapTokens (m : Str → ℚ) (maxW : ℚ) : List Str → Str → List Str
  | [], line => if line = [] then [] else [line]
  | t :: ts, line =>
    let test := if line = [] then t else line ++ ' ' :: t
    if m test ≤ maxW then wrapTokens m maxW ts test
    else if line = [] then
      let r := splitChars m maxW t []
      r.1 ++ wrapTokens m maxW ts (if r.2 = [] then [] else r.2)
    else line :: wrapTokens m maxW ts t

/-- `wrapByWidth(ctx, text, maxW)` from the source; `m` is the measurer with
the ambient `ctx.font` already applied. -/
def wrapByWidth (m : Str → ℚ) (text : Str) (maxW : ℚ) : List Str :=
  if text = [] then [] else wrapTokens m maxW (words text) []

/-- Floor of a rational, written so that it evaluates by reduction
(`Int./` is Euclidean division, which is floor division for the positive
denominator). -/
def floorQ (q : ℚ) : ℤ := q.num / q.den

/-- Ceiling of a rational (`Math.ceil`). -/
def ceilQ (q : ℚ) : ℤ := -floorQ (-q)

/-- `Math.round` on a JS number: round half toward positive infinity. -/
def jsRound (q : ℚ) : ℤ := floorQ (q + mkRat 1 2)

/-- `const lh = Math.ceil(mid * lineGap)`. -/
def lineHeightAt (gap : ℚ) (s : Nat) : ℤ := ceilQ ((s : ℚ) * gap)

/-- Lines of the paragraph wrapped at size `s`
(`ctx.font = mid px quoted` has no weight prefix, hence weight 400). -/
def paraLinesAt (M : Measurer) (text : Str) (maxW : ℚ) (s : Nat) : List Str :=
  wrapByWidth (M ⟨400, s⟩) text maxW

/-- `measureParagraph(...).height = lines.length * lineHeight` at size `s`. -/
def paraHeightAt (M : Measurer) (text : Str) (maxW gap : ℚ) (s : Nat) : ℤ :=
  ((paraLinesAt M text maxW s).length : ℤ) * lineHeightAt gap s

/-- The fit test `m.height <= maxH` of the paragraph fitter at size `s`. -/
def paraFeasible (M : Measurer) (text : Str) (maxW gap : ℚ) (maxH : ℤ)
    (s : Nat) : Bool :=
  paraHeightAt M text maxW gap s ≤ maxH

/-- The binary-search skeleton shared by both fitters, returning the final
value of `best`.  `feas mid` is the body's fit test.  The case
`mid = 0 ∧ ¬ feas mid` is where JS sets `hi = -1` and exits. -/
def bsearchBest (feas : Nat → Bool) (lo hi best : Nat) : Nat :=
  if h : lo ≤ hi then
    let mid := (lo + hi) / 2
    if feas mid then bsearchBest feas (mid + 1) hi mid
    else if mid = 0 then best
    else bsearchBest feas lo (mid - 1) best
  else best
termination_by hi + 1 - lo
decreasing_by
  · omega
  · omega

/-- The `FitResult` record `{ fontPx, lineHeight, lines }` of the paragraph
fitter. -/
structure FitResult where
  fontPx : Nat
  lineHeight : ℤ
  lines : List Str
deriving DecidableEq, Repr

/-- `fitFontBinaryParagraph`: binary search for the largest size whose
wrapped paragraph has `lines.length * lh ≤ maxH`; after the loop the result
is rebuilt by re-measuring at `best` (the loop's `bestLines` variable is
dead in the source). -/
def fitFontBinaryParagraph (M : Measurer) (text : Str) (maxW : ℚ) (maxH : ℤ)
    (minPx maxPx : Nat) (gap : ℚ) : FitResult :=
  let best := bsearchBest (paraFeasible M text maxW gap maxH) minPx maxPx minPx
  ⟨best, lineHeightAt gap best, paraLinesAt M text maxW best⟩

/-- One table row `{ key, value }` of the parsed pairs. -/
structure Row where
  key : Str
  value : Str
deriving DecidableEq, Repr

/-- One entry of the table fitter's `wrapped` array:
`{ left: leftLines, right: rightLines, rowH }`. -/
structure WrappedRow where
  left : List Str
  right : List Str
  rowH : ℤ
deriving DecidableEq, Repr

/-- The table fitter's result `{ fontPx, lineHeight, wrapped }`. -/
structure TableFitResult where
  fontPx : Nat
  lineHeight : ℤ
  wrapped : List WrappedRow
deriving DecidableEq, Repr

/-- `Math.round(lh * 0.35)`, the inter-row gap at size `s`. -/
def rowGapAt (gap : ℚ) (s : Nat) : ℤ := jsRound ((lineHeightAt gap s : ℚ) * (7 / 20))

/-- One iteration of the row loop in the table fitter's probe: the key is
wrapped with `ctx.font = 600 mid px`, the value with `ctx.font = mid px`
(weight 400), `rowH = max(leftLines.length, rightLines.length) * lh`. -/
def probeRowAt (M : Measurer) (colL colR : ℚ) (gap : ℚ) (s : Nat) (r : Row) :
    WrappedRow :=
  let leftLines := wrapByWidth (M ⟨600, s⟩) r.key colL
  let rightLines := wrapByWidth (M ⟨400, s⟩) r.value colR
  ⟨leftLines, rightLines, (max leftLines.length rightLines.length : ℤ) * lineHeightAt gap s⟩

/-- The `wrapped` array built by one probe of the table fitter. -/
def tableWrappedAt (M : Measurer) (rows : List Row) (colL colR gap : ℚ)
    (s : Nat) : List WrappedRow :=
  rows.map (probeRowAt M colL colR gap s)

/-- The probe's `totalH`: each row adds `rowH + round(lh*0.35)`, and one
gap is subtracted at the end when the sum is positive. -/
def tableTotalAt (M : Measurer) (rows : List Row) (colL colR gap : ℚ)
    (s : Nat) : ℤ :=
  let g := rowGapAt gap s
  let t := ((tableWrappedAt M rows colL colR gap s).map (fun w => w.rowH + g)).sum
  if 0 < t then t - g else t

/-- The table fit test `totalH <= maxH` at size `s`. -/
def tableFeasible (M : Measurer) (rows : List Row) (colL colR gap : ℚ)
    (maxH : ℤ) (s : Nat) : Bool :=
  tableTotalAt M rows colL colR gap s ≤ maxH

/-- The table fitter's `while` loop.  Besides `bestResult` it threads the
mutable `ctx.font` state: a probe over a non-empty row list leaves the font
at weight-400 size-`mid` (the last assignment in the row loop); the source's
`best` variable is dead (the fallback hard-codes `minPx`) and is omitted. -/
def tableLoop (M : Measurer) (rows : List Row) (colL colR gap : ℚ) (maxH : ℤ) :
    Nat → Nat → Option TableFitResult → FontSpec → Option TableFitResult × FontSpec
  | lo, hi, bestRes, fnt =>
    if h : lo ≤ hi then
      let mid := (lo + hi) / 2
      let fnt' := if rows = [] then fnt else ⟨400, mid⟩
      if tableFeasible M rows colL colR gap maxH mid then
        tableLoop M rows colL colR gap maxH (mid + 1) hi
          (some ⟨mid, lineHeightAt gap mid, tableWrappedAt M rows colL colR gap mid⟩) fnt'
      else if mid = 0 then (bestRes, fnt')
      else tableLoop M rows colL colR gap maxH lo (mid - 1) bestRes fnt'
    else (bestRes, fnt)
termination_by lo hi => hi + 1 - lo
decreasing_by
  · omega
  · omega

/-- One row of the fallback array: both cells are wrapped with whatever font
`ctx` was left holding (the fallback never sets `ctx.font`), and
`rowH = Math.max(1, Math.max(leftLines.length, rightLines.length))` — a
line count, with no `* lh` factor. -/
def fallbackRowAt (M : Measurer) (colL colR : ℚ) (fnt : FontSpec) (r : Row) :
    WrappedRow :=
  ⟨wrapByWidth (M fnt) r.key colL, wrapByWidth (M fnt) r.value colR,
    (max 1 (max (wrapByWidth (M fnt) r.key colL).length
      (wrapByWidth (M fnt) r.value colR).length) : ℤ)⟩

/-- `fitFontBinaryTable`; `fnt0` is the `ctx.font` state at entry (used only
if the loop body never runs before the fallback). -/
def fitFontBinaryTable (M : Measurer) (rows : List Row) (colL colR : ℚ)
    (maxH : ℤ) (minPx maxPx : Nat) (gap : ℚ) (fnt0 : FontSpec) : TableFitResult :=
  match tableLoop M rows colL colR gap maxH minPx maxPx none fnt0 with
  | (some r, _) => r
  | (none, fnt) =>
    ⟨minPx, lineHeightAt gap minPx, rows.map (fallbackRowAt M colL colR fnt)⟩

/-- The total height the drawing loop attributes to a `TableFitResult`:
row heights plus one inter-row gap per boundary (computed exactly as the
probe computes `totalH`). -/
def resultTotalHeight (r : TableFitResult) : ℤ :=
  let g := jsRound ((r.lineHeight : ℚ) * (7 / 20))
  let t := (r.wrapped.map (fun w => w.rowH + g)).sum
  if 0 < t then t - g else t

/-! ### The raw-text parser of `drawOne` -/

/-- `"...".split("\n")` (splitting on a single character, JS semantics:
`"" → [""]`). -/
def splitOnChar (c : Char) : Str → List Str
  | [] => [[]]
  | x :: xs =>
    match splitOnChar c xs with
    | [] => [[]]
    | h :: t => if x = c then [] :: h :: t else (x :: h) :: t

/-- `String.prototype.trim`. -/
def trimStr (s : Str) : Str :=
  ((s.dropWhile (fun c => isWS c)).reverse.dropWhile (fun c => isWS c)).reverse

/-- The filtered line list of `drawOne`:
`text.replace(/\r/g, "").split("\n").map(l => l.trim()).filter(Boolean)`. -/
def contentLines (text : Str) : List Str :=
  ((splitOnChar '\n' (text.filter (fun c => c ≠ '\r'))).map trimStr).filter (· ≠ [])

/-- The pair-collecting loop `for (let i = 2; i < lines.length; i += 2)` with
`k = lines[i] || ""`, `v = lines[i+1] || ""`, `if (k || v) pairs.push(...)`,
expressed as recursion consuming two lines per step. -/
def collectPairs : List Str → List (Str × Str)
  | [] => []
  | [k] => if k = [] then [] else [(k, [])]
  | k :: v :: rest => (if k = [] ∧ v = [] then [] else [(k, v)]) ++ collectPairs rest

/-- The parsed content model of `drawOne`: `title = lines[0] || ""`,
`subtitle = lines[1] || ""`, plus the collected pairs. -/
structure ContentModel where
  title : Str
  subtitle : Str
  pairs : List (Str × Str)
deriving DecidableEq, Repr

/-- The parsing block of `drawOne` (source lines 229–238). -/
def parseContent (text : Str) : ContentModel :=
  let lines := contentLines text
  ⟨lines.headD [], (lines.drop 1).headD [], collectPairs (lines.drop 2)⟩

/-- Claim-side description of the pairing (spec wording): the remaining
lines taken two at a time, a pair kept whenever either side is non-empty. -/
def chunksOfTwo : List Str → List (Str × Str)
  | [] => []
  | [k] => [(k, [])]
  | k :: v :: rest => (k, v) :: chunksOfTwo rest

/-- Claim-side pair list: chunk the filtered remainder two at a time and
keep a pair iff either side is non-empty. -/
def pairsSpec (l : List Str) : List (Str × Str) :=
  (chunksOfTwo l).filter (fun p => p.1 ≠ [] ∨ p.2 ≠ [])

/-! ### Bridges certifying the hand-rolled rounding functions -/

/-- `floorQ` is the mathematical floor. -/
theorem floorQ_eq (q : ℚ) : floorQ q = ⌊q⌋ := (Rat.floor_def).symm

/-- `ceilQ` is the mathematical ceiling. -/
theorem ceilQ_eq (q : ℚ) : ceilQ q = ⌈q⌉ := by
  rw [ceilQ, floorQ_eq, Int.floor_neg, neg_neg]

/-- `jsRound` is floor of the argument plus one half. -/
theorem jsRound_eq (q : ℚ) : jsRound q = ⌊q + 1 / 2⌋ := by
  rw [jsRound, floorQ_eq]
  norm_num [mkRat]

/-! ### Word wrapper lemmas -/

section WrapLemmas

variable {m : Str → ℚ} {maxW : ℚ}

/-- No character of `s` is whitespace. -/
def NoWS (s : Str) : Prop := ∀ c ∈ s, isWS c = false

theorem wordsAux_mem {l acc : Str} (hacc : NoWS acc) {w : Str}
    (hw : w ∈ wordsAux l acc) : w ≠ [] ∧ NoWS w := by
  induction l generalizing acc with
  | nil =>
    simp only [wordsAux] at hw
    split at hw
    · simp at hw
    · next h =>
      simp only [List.mem_singleton] at hw
      subst hw
      refine ⟨by simpa using h, ?_⟩
      intro c hc
      exact hacc c (List.mem_reverse.mp hc)
  | cons c cs ih =>
    simp only [wordsAux] at hw
    split at hw
    · split at hw
      · exact ih (by simp [NoWS]) hw
      · next h =>
        rcases List.mem_cons.mp hw with h1 | h1
        · subst h1
          exact ⟨by simpa using h, fun x hx => hacc x (List.mem_reverse.mp hx)⟩
        · exact ih (by simp [NoWS]) h1
    · next h =>
      refine ih ?_ hw
      intro x hx
      rcases List.mem_cons.mp hx with rfl | h1
      · simpa using h
      · exact hacc x h1

theorem words_mem {s w : Str} (hw : w ∈ words s) : w ≠ [] ∧ NoWS w :=
  wordsAux_mem (by simp [NoWS]) hw

theorem wordsAux_flatten (l acc : Str) :
    (wordsAux l acc).flatten = acc.reverse ++ l.filter (fun c => !isWS c) := by
  induction l generalizing acc with
  | nil =>
    simp only [wordsAux]
    split
    · simp [*]
    · simp
  | cons c cs ih =>
    simp only [wordsAux]
    by_cases h : isWS c
    · simp only [h, if_true]
      split
      · simp [ih, List.filter_cons, h, *]
      · simp [ih, List.filter_cons, h]
    · rw [if_neg h, ih (c :: acc)]
      simp [List.filter_cons, h]

theorem words_flatten (s : Str) : (words s).flatten = s.filter (fun c => !isWS c) := by
  simpa using wordsAux_flatten s []

theorem wordsAux_all_noWS {l : Str} (hl : NoWS l) (acc : Str) :
    wordsAux l acc = if acc = [] ∧ l = [] then [] else [acc.reverse ++ l] := by
  induction l generalizing acc with
  | nil => simp [wordsAux]
  | cons c cs ih =>
    have hc : isWS c = false := hl c (by simp)
    have hcs : NoWS cs := fun x hx => hl x (by simp [hx])
    simp only [wordsAux, hc, if_false, Bool.false_eq_true]
    rw [ih hcs]
    simp

theorem words_single_token {t : Str} (ht : t ≠ []) (hns : NoWS t) : words t = [t] := by
  rw [words, wordsAux_all_noWS hns]
  simp [ht]

theorem wordsAux_append_ws {c : Char} (hc : isWS c = true) (a b acc : Str) :
    wordsAux (a ++ c :: b) acc = wordsAux a acc ++ words b := by
  induction a generalizing acc with
  | nil =>
    simp only [List.nil_append, wordsAux, hc, if_true]
    split
    · simp [words, *]
    · simp [words]
  | cons x xs ih =>
    simp only [List.cons_append, wordsAux]
    by_cases hx : isWS x
    · simp only [hx, if_true, List.append_eq]
      split
      · exact ih []
      · rw [ih []]
        simp
    · rw [if_neg hx, if_neg hx]
      exact ih (x :: acc)

theorem words_append_ws {c : Char} (hc : isWS c = true) (a b : Str) :
    words (a ++ c :: b) = words a ++ words b :=
  wordsAux_append_ws hc a b []

theorem splitChars_conserve (cs chunk : Str) :
    (splitChars m maxW cs chunk).1.flatten ++ (splitChars m maxW cs chunk).2 = chunk ++ cs := by
  induction cs generalizing chunk with
  | nil => simp [splitChars]
  | cons c cs ih =>
    simp only [splitChars]
    split
    · rw [ih (chunk ++ [c])]
      simp
    · split
      · next h =>
        subst h
        simpa using ih [c]
      · have := ih [c]
        simp only [List.flatten_cons, List.append_assoc, this]
        simp

theorem splitChars_pushed_ne_nil {cs chunk : Str} {p : Str}
    (hp : p ∈ (splitChars m maxW cs chunk).1) : p ≠ [] := by
  induction cs generalizing chunk with
  | nil => simp [splitChars] at hp
  | cons c cs ih =>
    simp only [splitChars] at hp
    split at hp
    · exact ih hp
    · split at hp
      · exact ih hp
      · next h =>
        rcases List.mem_cons.mp hp with rfl | h1
        · exact h
        · exact ih h1

theorem splitChars_noWS {cs chunk : Str} (hchunk : NoWS chunk) (hcs : NoWS cs) :
    (∀ p ∈ (splitChars m maxW cs chunk).1, NoWS p) ∧ NoWS (splitChars m maxW cs chunk).2 := by
  induction cs generalizing chunk with
  | nil =>
    constructor
    · intro p hp
      simp [splitChars] at hp
    · simpa [splitChars] using hchunk
  | cons c cs ih =>
    have hc : isWS c = false := hcs c (by simp)
    have hcs' : NoWS cs := fun x hx => hcs x (by simp [hx])
    have hk : NoWS (chunk ++ [c]) := by
      intro x hx
      rcases List.mem_append.mp hx with h1 | h1
      · exact hchunk x h1
      · simp only [List.mem_singleton] at h1
        subst h1
        exact hc
    have hone : NoWS [c] := by
      intro x hx
      simp only [List.mem_singleton] at hx
      subst hx
      exact hc
    simp only [splitChars]
    split
    · exact ih hk hcs'
    · refine ⟨?_, (ih hone hcs').2⟩
      intro p hp
      split at hp
      · exact (ih hone hcs').1 p hp
      · rcases List.mem_cons.mp hp with rfl | h1
        · exact hchunk
        · exact (ih hone hcs').1 p h1

theorem wrapTokens_cons_nil {t : Str} {ts : List Str} :
    wrapTokens m maxW (t :: ts) [] =
      if m t ≤ maxW then wrapTokens m maxW ts t
      else (splitChars m maxW t []).1 ++ wrapTokens m maxW ts
        (if (splitChars m maxW t []).2 = [] then [] else (splitChars m maxW t []).2) := by
  simp [wrapTokens]

theorem wrapTokens_cons_ne {t line : Str} {ts : List Str} (h : line ≠ []) :
    wrapTokens m maxW (t :: ts) line =
      if m (line ++ ' ' :: t) ≤ maxW then wrapTokens m maxW ts (line ++ ' ' :: t)
      else line :: wrapTokens m maxW ts t := by
  simp [wrapTokens, h]

theorem wrapTokens_ne_nil {ts : List Str} {line : Str} {l : Str}
    (hl : l ∈ wrapTokens m maxW ts line) : l ≠ [] := by
  induction ts generalizing line with
  | nil =>
    simp only [wrapTokens] at hl
    split at hl
    · simp at hl
    · next h =>
      simp only [List.mem_singleton] at hl
      subst hl
      exact h
  | cons t ts ih =>
    by_cases hline : line = []
    · subst hline
      rw [wrapTokens_cons_nil] at hl
      split at hl
      · exact ih hl
      · rcases List.mem_append.mp hl with h1 | h1
        · exact splitChars_pushed_ne_nil h1
        · exact ih h1
    · rw [wrapTokens_cons_ne hline] at hl
      split at hl
      · exact ih hl
      · rcases List.mem_cons.mp hl with rfl | h1
        · exact hline
        · exact ih h1

theorem noWS_filter_eq_self {t : Str} (ht : NoWS t) :
    t.filter (fun c => !isWS c) = t := by
  refine List.filter_eq_self.mpr ?_
  intro c hc
  simp [ht c hc]

theorem wrapTokens_flatten {ts : List Str} (hts : ∀ t ∈ ts, NoWS t) (line : Str) :
    ((wrapTokens m maxW ts line).flatten).filter (fun c => !isWS c) =
      line.filter (fun c => !isWS c) ++ ts.flatten := by
  induction ts generalizing line with
  | nil =>
    simp only [wrapTokens]
    split
    · simp [*]
    · simp
  | cons t ts ih =>
    have hT : NoWS t := hts t (by simp)
    have hts' : ∀ x ∈ ts, NoWS x := fun x hx => hts x (by simp [hx])
    by_cases hline : line = []
    · subst hline
      rw [wrapTokens_cons_nil]
      split
      · rw [ih hts']
        simp [noWS_filter_eq_self hT]
      · rw [List.flatten_append, List.filter_append, ih hts']
        have hcons := @splitChars_conserve m maxW t []
        have h2 : ((if (splitChars m maxW t []).2 = [] then ([] : Str)
            else (splitChars m maxW t []).2)).filter (fun c => !isWS c) =
            ((splitChars m maxW t []).2).filter (fun c => !isWS c) := by
          split <;> simp [*]
        rw [h2, ← List.append_assoc, ← List.filter_append, hcons]
        simp [noWS_filter_eq_self hT]
    · rw [wrapTokens_cons_ne hline]
      split
      · rw [ih hts']
        simp [List.filter_append, List.filter_cons, noWS_filter_eq_self hT, List.append_assoc,
          show isWS ' ' = true from rfl]
      · rw [List.flatten_cons, List.filter_append, ih hts']
        simp [List.append_assoc, noWS_filter_eq_self hT]

/-- The tail a line contributes when further tokens are glued on with single
spaces. -/
def glueTail : List Str → Str
  | [] => []
  | t :: ts => ' ' :: (t ++ glueTail ts)

/-- Tokens joined by single spaces. -/
def joinSp : List Str → Str
  | [] => []
  | t :: ts => t ++ glueTail ts

/-- A string is normalized when it is non-empty and is exactly its own
token list joined by single spaces (no leading/trailing/repeated
whitespace). -/
def Normalized (l : Str) : Prop := l ≠ [] ∧ joinSp (words l) = l

theorem glueTail_append (ts : List Str) (t : Str) :
    glueTail (ts ++ [t]) = glueTail ts ++ ' ' :: t := by
  induction ts with
  | nil => simp [glueTail]
  | cons x xs ih => simp [glueTail, ih]

theorem joinSp_append_single {ts : List Str} (h : ts ≠ []) (t : Str) :
    joinSp (ts ++ [t]) = joinSp ts ++ ' ' :: t := by
  cases ts with
  | nil => exact absurd rfl h
  | cons x xs => simp [joinSp, glueTail_append]

theorem token_normalized {t : Str} (ht : t ≠ []) (hns : NoWS t) : Normalized t := by
  refine ⟨ht, ?_⟩
  rw [words_single_token ht hns]
  simp [joinSp, glueTail]

theorem normalized_glue {line t : Str} (hline : Normalized line) (ht : t ≠ [])
    (hns : NoWS t) : Normalized (line ++ ' ' :: t) := by
  obtain ⟨h1, h2⟩ := hline
  refine ⟨by simp, ?_⟩
  rw [words_append_ws (show isWS ' ' = true from rfl) _ _, words_single_token ht hns]
  have hw : words line ≠ [] := by
    intro hcon
    rw [hcon] at h2
    exact h1 (by simpa [joinSp] using h2.symm)
  rw [joinSp_append_single hw, h2]

theorem wrapTokens_normalized {ts : List Str} {line : Str}
    (hts : ∀ t ∈ ts, t ≠ [] ∧ NoWS t) (hline : line = [] ∨ Normalized line)
    {l : Str} (hl : l ∈ wrapTokens m maxW ts line) : Normalized l := by
  induction ts generalizing line with
  | nil =>
    simp only [wrapTokens] at hl
    split at hl
    · simp at hl
    · simp only [List.mem_singleton] at hl
      subst hl
      rcases hline with h | h
      · simp_all
      · exact h
  | cons t ts ih =>
    have hT := hts t (by simp)
    have hts' : ∀ x ∈ ts, x ≠ [] ∧ NoWS x := fun x hx => hts x (by simp [hx])
    by_cases hl0 : line = []
    · subst hl0
      rw [wrapTokens_cons_nil] at hl
      split at hl
      · exact ih hts' (Or.inr (token_normalized hT.1 hT.2)) hl
      · have hsp := @splitChars_noWS m maxW t ([] : Str) (by simp [NoWS]) hT.2
        rcases List.mem_append.mp hl with h1 | h1
        · exact token_normalized (splitChars_pushed_ne_nil h1) (hsp.1 _ h1)
        · refine ih hts' ?_ h1
          split
          · exact Or.inl rfl
          · next h => exact Or.inr (token_normalized h (hsp.2))
    · have hN : Normalized line := by
        rcases hline with h | h
        · exact absurd h hl0
        · exact h
      rw [wrapTokens_cons_ne hl0] at hl
      split at hl
      · exact ih hts' (Or.inr (normalized_glue hN hT.1 hT.2)) hl
      · rcases List.mem_cons.mp hl with rfl | h1
        · exact hN
        · exact ih hts' (Or.inr (token_normalized hT.1 hT.2)) h1

theorem wrapByWidth_normalized {text l : Str} (hl : l ∈ wrapByWidth m text maxW) :
    Normalized l := by
  rw [wrapByWidth] at hl
  split at hl
  · simp at hl
  · exact wrapTokens_normalized (fun t ht => words_mem ht) (Or.inl rfl) hl

/-- A measurer is monotone under extension: appending characters never
shrinks the measured width.  (All geometric text measurers satisfy this.) -/
def MonoM (m : Str → ℚ) : Prop := ∀ s t : Str, m s ≤ m (s ++ t)

theorem wrapTokens_fits (hm : MonoM m) {ts : List Str} {line : Str}
    (hline : line ≠ []) (hfit : m (line ++ glueTail ts) ≤ maxW) :
    wrapTokens m maxW ts line = [line ++ glueTail ts] := by
  induction ts generalizing line with
  | nil =>
    simp [wrapTokens, glueTail, hline]
  | cons t ts ih =>
    have hassoc : (line ++ ' ' :: t) ++ glueTail ts = line ++ glueTail (t :: ts) := by
      simp [glueTail]
    have htest : m (line ++ ' ' :: t) ≤ maxW :=
      le_trans (by simpa [hassoc] using hm (line ++ ' ' :: t) (glueTail ts)) hfit
    rw [wrapTokens_cons_ne hline, if_pos htest, ih (by simp) (by rw [hassoc]; exact hfit),
      hassoc]

theorem rewrap_self (hm : MonoM m) {l : Str} (hN : Normalized l)
    (hfit : m l ≤ maxW) : wrapByWidth m l maxW = [l] := by
  obtain ⟨hne, hjoin⟩ := hN
  rw [wrapByWidth, if_neg hne]
  cases hw : words l with
  | nil =>
    rw [hw] at hjoin
    exact absurd hjoin.symm (by simpa [joinSp] using hne)
  | cons t ts =>
    rw [hw] at hjoin
    simp only [joinSp] at hjoin
    have ht : t ≠ [] := (words_mem (by rw [hw]; simp)).1
    have hfit' : m (t ++ glueTail ts) ≤ maxW := by rw [hjoin]; exact hfit
    have htt : m t ≤ maxW := le_trans (hm t (glueTail ts)) hfit'
    rw [wrapTokens_cons_nil, if_pos htt, wrapTokens_fits hm ht hfit', hjoin]

theorem normalized_single_not_ws {c : Char} (hN : Normalized [c]) :
    isWS c = false := by
  by_contra h
  have hws : isWS c = true := by simpa using h
  have hwc : words [c] = [] := by
    simp [words, wordsAux, hws]
  obtain ⟨h1, h2⟩ := hN
  rw [hwc] at h2
  simp [joinSp] at h2

theorem rewrap_single_char {c : Char} (hc : isWS c = false) :
    wrapByWidth m [c] maxW = [[c]] := by
  have hw : words [c] = [[c]] :=
    words_single_token (by simp) (by intro x hx; simp only [List.mem_singleton] at hx; subst hx; exact hc)
  rw [wrapByWidth, if_neg (by simp), hw, wrapTokens_cons_nil]
  split
  · simp [wrapTokens]
  · simp [splitChars, wrapTokens, *]

end WrapLemmas

/-! ### Binary-search lemmas -/

section SearchLemmas

variable {feas f g : Nat → Bool} {lo hi best : Nat}

theorem bsearchBest_step_feas (h : lo ≤ hi) (hf : feas ((lo + hi) / 2) = true) :
    bsearchBest feas lo hi best = bsearchBest feas ((lo + hi) / 2 + 1) hi ((lo + hi) / 2) := by
  rw [bsearchBest]
  simp [h, hf]

theorem bsearchBest_step_zero (h : lo ≤ hi) (hf : feas ((lo + hi) / 2) = false)
    (h0 : (lo + hi) / 2 = 0) : bsearchBest feas lo hi best = best := by
  have hf' : feas 0 = false := by rw [h0] at hf; exact hf
  rw [bsearchBest]
  simp [h, h0, hf']

theorem bsearchBest_step_infeas (h : lo ≤ hi) (hf : feas ((lo + hi) / 2) = false)
    (h0 : (lo + hi) / 2 ≠ 0) :
    bsearchBest feas lo hi best = bsearchBest feas lo ((lo + hi) / 2 - 1) best := by
  rw [bsearchBest]
  simp [h, hf, h0]

theorem bsearchBest_stop (h : ¬ lo ≤ hi) : bsearchBest feas lo hi best = best := by
  rw [bsearchBest]
  simp [h]

theorem mid_bounds (h : lo ≤ hi) : lo ≤ (lo + hi) / 2 ∧ (lo + hi) / 2 ≤ hi := by
  omega

theorem bsearchBest_ge (hb : best ≤ lo) : best ≤ bsearchBest feas lo hi best := by
  induction lo, hi, best using bsearchBest.induct feas with
  | case1 lo hi best h mid hf ih =>
    rw [bsearchBest_step_feas h hf]
    have hm := @mid_bounds lo hi h
    exact le_trans (by omega) (ih (by omega))
  | case2 lo hi best h mid hf h0 =>
    rw [bsearchBest_step_zero h (by simpa using hf) h0]
  | case3 lo hi best h mid hf h0 ih =>
    rw [bsearchBest_step_infeas h (by simpa using hf) h0]
    exact ih hb
  | case4 lo hi best h =>
    rw [bsearchBest_stop h]

theorem bsearchBest_le : bsearchBest feas lo hi best ≤ max best hi := by
  induction lo, hi, best using bsearchBest.induct feas with
  | case1 lo hi best h mid hf ih =>
    rw [bsearchBest_step_feas h hf]
    have hm := @mid_bounds lo hi h
    exact le_trans ih (by omega)
  | case2 lo hi best h mid hf h0 =>
    rw [bsearchBest_step_zero h (by simpa using hf) h0]
    omega
  | case3 lo hi best h mid hf h0 ih =>
    rw [bsearchBest_step_infeas h (by simpa using hf) h0]
    have hm := @mid_bounds lo hi h
    exact le_trans ih (by omega)
  | case4 lo hi best h =>
    rw [bsearchBest_stop h]
    omega

theorem bsearchBest_none (hall : ∀ s, lo ≤ s → s ≤ hi → feas s = false) :
    bsearchBest feas lo hi best = best := by
  induction lo, hi, best using bsearchBest.induct feas with
  | case1 lo hi best h mid hf ih =>
    have hm := @mid_bounds lo hi h
    rw [hall _ (by omega) (by omega)] at hf
    exact absurd hf (by simp)
  | case2 lo hi best h mid hf h0 =>
    exact bsearchBest_step_zero h (by simpa using hf) h0
  | case3 lo hi best h mid hf h0 ih =>
    have hm := @mid_bounds lo hi h
    rw [bsearchBest_step_infeas h (by simpa using hf) h0]
    exact ih fun s h1 h2 => hall s h1 (by omega)
  | case4 lo hi best h =>
    exact bsearchBest_stop h

theorem bsearchBest_stat {b0 : Nat} (hb : best = b0 ∨ feas best = true) :
    bsearchBest feas lo hi best = b0 ∨ feas (bsearchBest feas lo hi best) = true := by
  induction lo, hi, best using bsearchBest.induct feas with
  | case1 lo hi best h mid hf ih =>
    rw [bsearchBest_step_feas h hf]
    exact ih (Or.inr hf)
  | case2 lo hi best h mid hf h0 =>
    rw [bsearchBest_step_zero h (by simpa using hf) h0]
    exact hb
  | case3 lo hi best h mid hf h0 ih =>
    rw [bsearchBest_step_infeas h (by simpa using hf) h0]
    exact ih hb
  | case4 lo hi best h =>
    rw [bsearchBest_stop h]
    exact hb

theorem bsearchBest_mono (hfg : ∀ s, f s = true → g s = true) (hb : best ≤ lo) :
    bsearchBest f lo hi best ≤ bsearchBest g lo hi best := by
  induction lo, hi, best using bsearchBest.induct f with
  | case1 lo hi best h mid hf ih =>
    rw [bsearchBest_step_feas h hf, bsearchBest_step_feas h (hfg _ hf)]
    exact ih (by omega)
  | case2 lo hi best h mid hf h0 =>
    have hm := @mid_bounds lo hi h
    rw [bsearchBest_step_zero h (by simpa using hf) h0]
    by_cases hg : g ((lo + hi) / 2) = true
    · rw [bsearchBest_step_feas h hg]
      have := @bsearchBest_ge g ((lo + hi) / 2 + 1) hi ((lo + hi) / 2) (by omega)
      omega
    · rw [bsearchBest_step_zero h (by simpa using hg) h0]
  | case3 lo hi best h mid hf h0 ih =>
    have hm := @mid_bounds lo hi h
    rw [bsearchBest_step_infeas h (by simpa using hf) h0]
    by_cases hg : g ((lo + hi) / 2) = true
    · rw [bsearchBest_step_feas h hg]
      have h1 := @bsearchBest_ge g ((lo + hi) / 2 + 1) hi ((lo + hi) / 2) (by omega)
      have h2 := @bsearchBest_le f lo ((lo + hi) / 2 - 1) best
      omega
    · rw [bsearchBest_step_infeas h (by simpa using hg) h0]
      exact ih hb
  | case4 lo hi best h =>
    rw [@bsearchBest_stop f lo hi best h, @bsearchBest_stop g lo hi best h]

theorem bsearchBest_argmax {min0 max0 : Nat}
    (hdc : ∀ s1 s2, min0 ≤ s1 → s1 ≤ s2 → s2 ≤ max0 → f s2 = true → f s1 = true)
    (hlo : min0 ≤ lo) (hhi : hi ≤ max0)
    (hA : ∀ s, min0 ≤ s → s ≤ max0 → f s = true → (s ≤ hi ∨ s ≤ best))
    (hcase : (best + 1 = lo ∧ f best = true) ∨
      (lo = min0 ∧ best = min0 ∧ ∀ s, min0 ≤ s → s ≤ max0 → f s = true → s ≤ hi)) :
    ∀ s, min0 ≤ s → s ≤ max0 → f s = true → s ≤ bsearchBest f lo hi best := by
  induction lo, hi, best using bsearchBest.induct f with
  | case1 lo hi best h mid hf ih =>
    intro s hs1 hs2 hs3
    have hmid : mid = (lo + hi) / 2 := rfl
    have hm := @mid_bounds lo hi h
    rw [bsearchBest_step_feas h hf]
    have hbm : best ≤ (lo + hi) / 2 := by
      rcases hcase with ⟨h1, _⟩ | ⟨_, h2, _⟩ <;> omega
    refine ih (by omega) hhi ?_ (Or.inl ⟨rfl, hf⟩) s hs1 hs2 hs3
    intro x hx1 hx2 hx3
    rcases hA x hx1 hx2 hx3 with h1 | h1
    · exact Or.inl h1
    · exact Or.inr (by omega)
  | case2 lo hi best h mid hf h0 =>
    intro s hs1 hs2 hs3
    have hmid : mid = (lo + hi) / 2 := rfl
    have hm := @mid_bounds lo hi h
    have : f ((lo + hi) / 2) = true := hdc _ s (by omega) (by omega) hs2 hs3
    simp [this] at hf
  | case3 lo hi best h mid hf h0 ih =>
    intro s hs1 hs2 hs3
    have hmid : mid = (lo + hi) / 2 := rfl
    have hm := @mid_bounds lo hi h
    have hf' : f ((lo + hi) / 2) = false := by simpa using hf
    rw [bsearchBest_step_infeas h hf' h0]
    have hstep : ∀ x, min0 ≤ x → x ≤ max0 → f x = true → x ≤ (lo + hi) / 2 - 1 ∨ x ≤ best := by
      intro x hx1 hx2 hx3
      rcases hA x hx1 hx2 hx3 with h1 | h1
      · by_cases hxm : x ≤ (lo + hi) / 2 - 1
        · exact Or.inl hxm
        · have : f ((lo + hi) / 2) = true := hdc _ x (by omega) (by omega) hx2 hx3
          rw [this] at hf'
          exact absurd hf' (by simp)
      · exact Or.inr h1
    refine ih hlo (by omega) hstep ?_ s hs1 hs2 hs3
    rcases hcase with ⟨h1, h2⟩ | ⟨h1, h2, h3⟩
    · exact Or.inl ⟨h1, h2⟩
    · refine Or.inr ⟨h1, h2, ?_⟩
      intro x hx1 hx2 hx3
      rcases hstep x hx1 hx2 hx3 with hh | hh
      · exact hh
      · by_cases hxe : x ≤ mid - 1
        · exact hxe
        · exfalso
          have hxm : x = (lo + hi) / 2 := by omega
          rw [← hxm] at hf'
          simp [hx3] at hf'
  | case4 lo hi best h =>
    intro s hs1 hs2 hs3
    rw [bsearchBest_stop h]
    rcases hcase with ⟨h1, h2⟩ | ⟨h1, h2, h3⟩
    · rcases hA s hs1 hs2 hs3 with hh | hh <;> omega
    · have := h3 s hs1 hs2 hs3
      omega

end SearchLemmas

/-! ### Table-fitter loop lemmas -/

section TableLemmas

variable {M : Measurer} {rows : List Row} {colL colR gap : ℚ} {maxH : ℤ}
variable {lo hi : Nat} {bestRes : Option TableFitResult} {fnt : FontSpec}

theorem tableLoop_stop (h : ¬ lo ≤ hi) :
    tableLoop M rows colL colR gap maxH lo hi bestRes fnt = (bestRes, fnt) := by
  rw [tableLoop]
  simp [h]

theorem tableLoop_step_feas (h : lo ≤ hi)
    (hf : tableFeasible M rows colL colR gap maxH ((lo + hi) / 2) = true) :
    tableLoop M rows colL colR gap maxH lo hi bestRes fnt =
      tableLoop M rows colL colR gap maxH ((lo + hi) / 2 + 1) hi
        (some ⟨(lo + hi) / 2, lineHeightAt gap ((lo + hi) / 2),
          tableWrappedAt M rows colL colR gap ((lo + hi) / 2)⟩)
        (if rows = [] then fnt else ⟨400, (lo + hi) / 2⟩) := by
  rw [tableLoop]
  simp [h, hf]

theorem tableLoop_step_zero (h : lo ≤ hi)
    (hf : tableFeasible M rows colL colR gap maxH ((lo + hi) / 2) = false)
    (h0 : (lo + hi) / 2 = 0) :
    tableLoop M rows colL colR gap maxH lo hi bestRes fnt =
      (bestRes, if rows = [] then fnt else ⟨400, (lo + hi) / 2⟩) := by
  have hf' : tableFeasible M rows colL colR gap maxH 0 = false := by rw [h0] at hf; exact hf
  rw [tableLoop]
  simp [h, h0, hf']

theorem tableLoop_step_infeas (h : lo ≤ hi)
    (hf : tableFeasible M rows colL colR gap maxH ((lo + hi) / 2) = false)
    (h0 : (lo + hi) / 2 ≠ 0) :
    tableLoop M rows colL colR gap maxH lo hi bestRes fnt =
      tableLoop M rows colL colR gap maxH lo ((lo + hi) / 2 - 1) bestRes
        (if rows = [] then fnt else ⟨400, (lo + hi) / 2⟩) := by
  rw [tableLoop]
  simp [h, hf, h0]

theorem tableLoop_range {min0 max0 : Nat} (hlo : min0 ≤ lo) (hhi : hi ≤ max0)
    (hbest : ∀ r, bestRes = some r → min0 ≤ r.fontPx ∧ r.fontPx ≤ max0) :
    ∀ r, (tableLoop M rows colL colR gap maxH lo hi bestRes fnt).1 = some r →
      min0 ≤ r.fontPx ∧ r.fontPx ≤ max0 := by
  induction lo, hi, bestRes, fnt using tableLoop.induct M rows colL colR gap maxH with
  | case1 lo hi bestRes fnt h mid fnt' hf ih =>
    intro r hr
    have hmid : mid = (lo + hi) / 2 := rfl
    rw [tableLoop_step_feas h hf] at hr
    refine ih (by omega) hhi ?_ r hr
    intro x hx
    injection hx with hx
    subst hx
    constructor <;> simp <;> omega
  | case2 lo hi bestRes fnt h mid hf h0 =>
    intro r hr
    rw [tableLoop_step_zero h (by simpa using hf) h0] at hr
    exact hbest r hr
  | case3 lo hi bestRes fnt h mid fnt' hf h0 ih =>
    intro r hr
    have hmid : mid = (lo + hi) / 2 := rfl
    rw [tableLoop_step_infeas h (by simpa using hf) h0] at hr
    exact ih hlo (by omega) hbest r hr
  | case4 lo hi bestRes fnt h =>
    intro r hr
    rw [tableLoop_stop h] at hr
    exact hbest r hr

theorem tableLoop_empty_rows
    (hbest : ∀ r, bestRes = some r → r.wrapped = []) :
    ∀ r, (tableLoop M [] colL colR gap maxH lo hi bestRes fnt).1 = some r →
      r.wrapped = [] := by
  induction lo, hi, bestRes, fnt using tableLoop.induct M ([] : List Row) colL colR gap maxH with
  | case1 lo hi bestRes fnt h mid fnt' hf ih =>
    intro r hr
    rw [tableLoop_step_feas h hf] at hr
    refine ih ?_ r hr
    intro x hx
    injection hx with hx
    subst hx
    simp [tableWrappedAt]
  | case2 lo hi bestRes fnt h mid hf h0 =>
    intro r hr
    rw [tableLoop_step_zero h (by simpa using hf) h0] at hr
    exact hbest r hr
  | case3 lo hi bestRes fnt h mid fnt' hf h0 ih =>
    intro r hr
    rw [tableLoop_step_infeas h (by simpa using hf) h0] at hr
    exact ih hbest r hr
  | case4 lo hi bestRes fnt h =>
    intro r hr
    rw [tableLoop_stop h] at hr
    exact hbest r hr

theorem tableLoop_all_infeasible (hrows : rows ≠ [])
    (h : lo ≤ hi)
    (hall : ∀ s, lo ≤ s → s ≤ hi → tableFeasible M rows colL colR gap maxH s = false) :
    tableLoop M rows colL colR gap maxH lo hi bestRes fnt =
      (bestRes, ⟨400, lo⟩) := by
  induction lo, hi, bestRes, fnt using tableLoop.induct M rows colL colR gap maxH with
  | case1 lo hi bestRes fnt h' mid fnt' hf ih =>
    have hmid : mid = (lo + hi) / 2 := rfl
    have hm : lo ≤ (lo + hi) / 2 ∧ (lo + hi) / 2 ≤ hi := by omega
    rw [hall _ (by omega) (by omega)] at hf
    exact absurd hf (by simp)
  | case2 lo hi bestRes fnt h' mid hf h0 =>
    have hmid : mid = (lo + hi) / 2 := rfl
    have hm : lo ≤ (lo + hi) / 2 ∧ (lo + hi) / 2 ≤ hi := by omega
    rw [tableLoop_step_zero h' (by simpa using hf) h0]
    have hlom : (lo + hi) / 2 = lo := by omega
    simp [hrows, hlom]
  | case3 lo hi bestRes fnt h' mid fnt' hf h0 ih =>
    have hmid : mid = (lo + hi) / 2 := rfl
    have hm : lo ≤ (lo + hi) / 2 ∧ (lo + hi) / 2 ≤ hi := by omega
    rw [tableLoop_step_infeas h' (by simpa using hf) h0]
    by_cases hrec : lo ≤ mid - 1
    · rw [show (if rows = [] then fnt else (⟨400, (lo + hi) / 2⟩ : FontSpec)) = fnt' from rfl]
      exact ih hrec fun s h1 h2 => hall s h1 (by omega)
    · rw [tableLoop_stop (by omega : ¬ lo ≤ (lo + hi) / 2 - 1)]
      have hlom : (lo + hi) / 2 = lo := by omega
      simp [hrows, hlom]
  | case4 lo hi bestRes fnt h' =>
    exact absurd h h'

end TableLemmas

/-! ### Parser lemmas -/

theorem collectPairs_eq_pairsSpec (l : List Str) : collectPairs l = pairsSpec l := by
  induction l using collectPairs.induct with
  | case1 => simp [collectPairs, pairsSpec, chunksOfTwo]
  | case2 => simp [collectPairs, pairsSpec, chunksOfTwo]
  | case3 k hk => simp [collectPairs, pairsSpec, chunksOfTwo, hk]
  | case4 k v rest ih =>
    by_cases hk : k = [] <;> by_cases hv : v = [] <;>
      simp [collectPairs, pairsSpec, chunksOfTwo, List.filter_cons, hk, hv, ih]

/-! ### Concrete measurers used in counterexamples and witnesses -/

/-- A width-proportional measurer (1px per character); monotone under
extension, like every geometric measurer. -/
def lenMeasure : Str → ℚ := fun s => (s.length : ℚ)

/-- The same measurer as a font-indexed capability. -/
def lenMeasurer : Measurer := fun _ s => (s.length : ℚ)

theorem lenMeasure_mono : MonoM lenMeasure := by
  intro s t
  simp only [lenMeasure, List.length_append]
  exact_mod_cast Nat.le_add_right _ _

/-- A measurer family that is not monotone across font sizes: everything is
0px wide at size 3 and 100px wide at any other size. -/
def stepMeasurer : Measurer := fun fs _ => if fs.size = 3 then 0 else 100

/-! ### Claim theorems -/

/-- C1: the claim says every wrapped line measures at most `maxWidth` except
single-character floor chunks, an over-wide token being always split
character-by-character.  The code violates this: when the current line is
non-empty, an over-wide token is carried whole onto a fresh line without any
width check, and is emitted overflowing.  At measurer = 1px/char,
`maxW = 3`, input `"ab cdefg"`, the wrapper emits the 5-char line `"cdefg"`
(width 5 > 3), although splitting it (as the wrapper itself does when the
token starts a paragraph) would give `"cde"`/`"fg"`. -/
theorem C1_overwide_token_emitted_whole :
    wrapByWidth lenMeasure ("ab cdefg".toList) 3 = ["ab".toList, "cdefg".toList] ∧
    3 < lenMeasure ("cdefg".toList) ∧ 1 < ("cdefg".toList).length ∧
    wrapByWidth lenMeasure ("cdefg".toList) 3 = ["cde".toList, "fg".toList] :=
  ⟨by decide, by decide, by decide, by decide⟩

/-- C4: the wrapper never drops characters: the concatenation of the
returned lines, with the inserted separator spaces removed, is exactly the
concatenation of the whitespace-separated tokens of the input, which in turn
is the input with its whitespace removed — for every measurer, text and
width. -/
theorem C4_wrap_drops_no_characters (m : Str → ℚ) (text : Str) (maxW : ℚ) :
    ((wrapByWidth m text maxW).flatten).filter (fun c => !isWS c) = (words text).flatten ∧
    (words text).flatten = text.filter (fun c => !isWS c) := by
  constructor
  · rw [wrapByWidth]
    split
    · next h =>
      subst h
      simp [words, wordsAux]
    · simpa using @wrapTokens_flatten m maxW (words text)
        (fun t ht => (words_mem ht).2) []
  · exact words_flatten text

/-- C10: every line emitted by the wrapper is a non-empty string, for every
measurer, text and width (the source pushes `line` and `chunk` only under
truthiness guards). -/
theorem C10_wrap_lines_nonempty (m : Str → ℚ) (text : Str) (maxW : ℚ) (l : Str)
    (hl : l ∈ wrapByWidth m text maxW) : l ≠ [] := by
  rw [wrapByWidth] at hl
  split at hl
  · simp at hl
  · exact wrapTokens_ne_nil hl

theorem C10_witness :
    "ab".toList ∈ wrapByWidth lenMeasure ("ab".toList) 3 ∧ "ab".toList ≠ [] := by
  have hmem : "ab".toList ∈ wrapByWidth lenMeasure ("ab".toList) 3 := by decide
  exact ⟨hmem, C10_wrap_lines_nonempty lenMeasure ("ab".toList) 3 ("ab".toList) hmem⟩

/-- C9 counterexample: the wrapper is not idempotent as claimed.  The line
`"cdefg"` is produced by wrapping `"ab cdefg"` at width 3 under the
1px/char measurer, but wrapping that line alone yields `["cde", "fg"]`,
not `["cdefg"]` (consequence of the over-wide carried token of C1). -/
theorem C9_counterexample :
    "cdefg".toList ∈ wrapByWidth lenMeasure ("ab cdefg".toList) 3 ∧
    wrapByWidth lenMeasure ("cdefg".toList) 3 ≠ ["cdefg".toList] :=
  ⟨by decide, by decide⟩

/-- C9 amended: for measurers monotone under extension, every output line
that measures within `maxWidth`, or consists of a single character, re-wraps
to exactly itself; only the over-wide multi-character carried lines of C1
can fail. -/
theorem C9_wrap_idempotent_on_fitting_lines {m : Str → ℚ} {text l : Str} {maxW : ℚ}
    (hm : MonoM m) (hl : l ∈ wrapByWidth m text maxW)
    (hfit : m l ≤ maxW ∨ l.length = 1) : wrapByWidth m l maxW = [l] := by
  have hN := wrapByWidth_normalized hl
  rcases hfit with hf | h1
  · exact rewrap_self hm hN hf
  · obtain ⟨c, rfl⟩ := List.length_eq_one.mp h1
    exact rewrap_single_char (normalized_single_not_ws hN)

theorem C9_witness :
    MonoM lenMeasure ∧ "ab".toList ∈ wrapByWidth lenMeasure ("ab".toList) 3 ∧
    (lenMeasure ("ab".toList) ≤ 3 ∨ ("ab".toList).length = 1) ∧
    wrapByWidth lenMeasure ("ab".toList) 3 = ["ab".toList] := by
  have hmem : "ab".toList ∈ wrapByWidth lenMeasure ("ab".toList) 3 := by decide
  have hfit : lenMeasure ("ab".toList) ≤ 3 := by decide
  exact ⟨lenMeasure_mono, hmem, Or.inl hfit,
    C9_wrap_idempotent_on_fitting_lines lenMeasure_mono hmem (Or.inl hfit)⟩

/-- C3 counterexample: with a measurer family that is not monotone across
sizes (0px/char at size 3, 100px/char otherwise), for the paragraph
`"a b c d"` with `maxW = 50`, `maxH = 3`, bounds `[1, 3]`, `lineGap = 1`,
size 3 is feasible (one line of height 3) but the binary search probes 2
and 1 (both infeasible, four forced lines) and returns the fallback
`minSize = 1` — not the largest feasible size 3. -/
theorem C3_counterexample :
    (fitFontBinaryParagraph stepMeasurer ("a b c d".toList) 50 3 1 3 1).fontPx = 1 ∧
    paraFeasible stepMeasurer ("a b c d".toList) 50 1 3 3 = true ∧
    (fitFontBinaryParagraph stepMeasurer ("a b c d".toList) 50 3 1 3 1).fontPx < 3 := by
  refine ⟨?_, by with_unfolding_all decide, ?_⟩
  · simp [fitFontBinaryParagraph, bsearchBest]
    with_unfolding_all decide
  · simp [fitFontBinaryParagraph, bsearchBest]
    with_unfolding_all decide

/-- C3 amended: when feasibility is downward-closed on `[minSize, maxSize]`
(true of monotone measurer families), the paragraph fitter returns the
largest feasible size in range, with the lines and line height recomputed
at that size; with no feasible size it returns `minSize`; the returned size
always lies in `[minSize, maxSize]` (so it is never 0 for positive
`minSize`). -/
theorem C3_paragraph_fitter_largest_feasible (M : Measurer) (text : Str)
    (maxW : ℚ) (maxH : ℤ) (minPx maxPx : Nat) (gap : ℚ) (hmm : minPx ≤ maxPx)
    (hdc : ∀ s1 ∈ Finset.Icc minPx maxPx, ∀ s2 ∈ Finset.Icc minPx maxPx,
      s1 ≤ s2 → paraFeasible M text maxW gap maxH s2 = true →
        paraFeasible M text maxW gap maxH s1 = true) :
    (fitFontBinaryParagraph M text maxW maxH minPx maxPx gap).lines =
      paraLinesAt M text maxW
        (fitFontBinaryParagraph M text maxW maxH minPx maxPx gap).fontPx ∧
    (fitFontBinaryParagraph M text maxW maxH minPx maxPx gap).lineHeight =
      lineHeightAt gap (fitFontBinaryParagraph M text maxW maxH minPx maxPx gap).fontPx ∧
    minPx ≤ (fitFontBinaryParagraph M text maxW maxH minPx maxPx gap).fontPx ∧
    (fitFontBinaryParagraph M text maxW maxH minPx maxPx gap).fontPx ≤ maxPx ∧
    (∀ s, minPx ≤ s → s ≤ maxPx → paraFeasible M text maxW gap maxH s = true →
      s ≤ (fitFontBinaryParagraph M text maxW maxH minPx maxPx gap).fontPx) ∧
    ((fitFontBinaryParagraph M text maxW maxH minPx maxPx gap).fontPx = minPx ∨
      paraFeasible M text maxW gap maxH
        (fitFontBinaryParagraph M text maxW maxH minPx maxPx gap).fontPx = true) := by
  have hdc' : ∀ s1 s2, minPx ≤ s1 → s1 ≤ s2 → s2 ≤ maxPx →
      paraFeasible M text maxW gap maxH s2 = true →
      paraFeasible M text maxW gap maxH s1 = true := by
    intro s1 s2 h1 h2 h3 hf
    exact hdc s1 (Finset.mem_Icc.mpr ⟨h1, le_trans h2 h3⟩)
      s2 (Finset.mem_Icc.mpr ⟨le_trans h1 h2, h3⟩) h2 hf
  refine ⟨rfl, rfl, bsearchBest_ge le_rfl, ?_, ?_, bsearchBest_stat (Or.inl rfl)⟩
  · have := @bsearchBest_le (paraFeasible M text maxW gap maxH) minPx maxPx minPx
    simpa [Nat.max_eq_right hmm] using this
  · intro s h1 h2 h3
    exact bsearchBest_argmax hdc' le_rfl le_rfl
      (fun x hx1 hx2 hx3 => Or.inl hx2)
      (Or.inr ⟨rfl, rfl, fun x hx1 hx2 hx3 => hx2⟩) s h1 h2 h3

theorem C3_witness :
    (1 : Nat) ≤ 3 ∧
    (∀ s1 ∈ Finset.Icc 1 3, ∀ s2 ∈ Finset.Icc 1 3, s1 ≤ s2 →
      paraFeasible lenMeasurer ("a b".toList) 10 1 100 s2 = true →
      paraFeasible lenMeasurer ("a b".toList) 10 1 100 s1 = true) ∧
    ((fitFontBinaryParagraph lenMeasurer ("a b".toList) 10 100 1 3 1).lines =
      paraLinesAt lenMeasurer ("a b".toList) 10
        (fitFontBinaryParagraph lenMeasurer ("a b".toList) 10 100 1 3 1).fontPx ∧
    (fitFontBinaryParagraph lenMeasurer ("a b".toList) 10 100 1 3 1).lineHeight =
      lineHeightAt 1 (fitFontBinaryParagraph lenMeasurer ("a b".toList) 10 100 1 3 1).fontPx ∧
    1 ≤ (fitFontBinaryParagraph lenMeasurer ("a b".toList) 10 100 1 3 1).fontPx ∧
    (fitFontBinaryParagraph lenMeasurer ("a b".toList) 10 100 1 3 1).fontPx ≤ 3 ∧
    (∀ s, 1 ≤ s → s ≤ 3 → paraFeasible lenMeasurer ("a b".toList) 10 1 100 s = true →
      s ≤ (fitFontBinaryParagraph lenMeasurer ("a b".toList) 10 100 1 3 1).fontPx) ∧
    ((fitFontBinaryParagraph lenMeasurer ("a b".toList) 10 100 1 3 1).fontPx = 1 ∨
      paraFeasible lenMeasurer ("a b".toList) 10 1 100
        (fitFontBinaryParagraph lenMeasurer ("a b".toList) 10 100 1 3 1).fontPx = true)) := by
  have h1 : (1 : Nat) ≤ 3 := by decide
  have h2 : ∀ s1 ∈ Finset.Icc 1 3, ∀ s2 ∈ Finset.Icc 1 3, s1 ≤ s2 →
      paraFeasible lenMeasurer ("a b".toList) 10 1 100 s2 = true →
      paraFeasible lenMeasurer ("a b".toList) 10 1 100 s1 = true := by
    with_unfolding_all decide
  exact ⟨h1, h2,
    C3_paragraph_fitter_largest_feasible lenMeasurer ("a b".toList) 10 100 1 3 1 h1 h2⟩

/-- C8: the paragraph fitter's chosen size is monotone in `maxHeight`:
shrinking `maxHeight` only shrinks the feasible set pointwise, and the
binary search is monotone under pointwise implication of the fit test
(this holds for every measurer family, monotone or not). -/
theorem C8_paragraph_fitter_monotone_in_maxH (M : Measurer) (text : Str)
    (maxW : ℚ) (maxH1 maxH2 : ℤ) (minPx maxPx : Nat) (gap : ℚ)
    (h : maxH2 ≤ maxH1) :
    (fitFontBinaryParagraph M text maxW maxH2 minPx maxPx gap).fontPx ≤
      (fitFontBinaryParagraph M text maxW maxH1 minPx maxPx gap).fontPx := by
  refine bsearchBest_mono ?_ le_rfl
  intro s hs
  simp only [paraFeasible, decide_eq_true_eq] at *
  omega

theorem C8_witness :
    (1 : ℤ) ≤ 100 ∧
    (fitFontBinaryParagraph lenMeasurer ("a b".toList) 10 1 1 3 1).fontPx ≤
      (fitFontBinaryParagraph lenMeasurer ("a b".toList) 10 100 1 3 1).fontPx :=
  ⟨by decide,
    C8_paragraph_fitter_monotone_in_maxH lenMeasurer ("a b".toList) 10 100 1 1 3 1
      (by decide)⟩

/-- C6: the table fitter's returned font size always lies in
`[minSize, maxSize]` (for a non-empty range): the loop only records probed
sizes, which stay inside the range, and the fallback returns `minSize`. -/
theorem C6_table_fitter_size_in_range (M : Measurer) (rows : List Row)
    (colL colR : ℚ) (maxH : ℤ) (minPx maxPx : Nat) (gap : ℚ) (fnt0 : FontSpec)
    (hmm : minPx ≤ maxPx) :
    minPx ≤ (fitFontBinaryTable M rows colL colR maxH minPx maxPx gap fnt0).fontPx ∧
    (fitFontBinaryTable M rows colL colR maxH minPx maxPx gap fnt0).fontPx ≤ maxPx := by
  have h := @tableLoop_range M rows colL colR gap maxH minPx maxPx none fnt0 minPx maxPx
    le_rfl le_rfl (by intro r hr; simp at hr)
  rw [fitFontBinaryTable]
  rcases hres : tableLoop M rows colL colR gap maxH minPx maxPx none fnt0 with ⟨res, fnt⟩
  cases res with
  | none => exact ⟨le_rfl, hmm⟩
  | some r =>
    have := h r (by rw [hres])
    simpa using this

theorem C6_witness :
    (9 : Nat) ≤ 10 ∧
    (9 ≤ (fitFontBinaryTable lenMeasurer [⟨"ab".toList, "cd".toList⟩] 100 100 0 9 10
        (mkRat 23 20) ⟨700, 50⟩).fontPx ∧
      (fitFontBinaryTable lenMeasurer [⟨"ab".toList, "cd".toList⟩] 100 100 0 9 10
        (mkRat 23 20) ⟨700, 50⟩).fontPx ≤ 10) :=
  ⟨by decide,
    C6_table_fitter_size_in_range lenMeasurer [⟨"ab".toList, "cd".toList⟩] 100 100 0 9 10
      (mkRat 23 20) ⟨700, 50⟩ (by decide)⟩

/-- C7: for an empty row list — whatever the other parameters — the table
fitter returns an empty wrapped-row sequence whose total computed height is
0, and the wrapper maps empty text to the empty line list (the embedded
functions are total, so no degenerate input can throw). -/
theorem C7_table_fitter_empty_rows (M : Measurer) (colL colR : ℚ) (maxH : ℤ)
    (minPx maxPx : Nat) (gap : ℚ) (fnt0 : FontSpec) :
    (fitFontBinaryTable M [] colL colR maxH minPx maxPx gap fnt0).wrapped = [] ∧
    resultTotalHeight (fitFontBinaryTable M [] colL colR maxH minPx maxPx gap fnt0) = 0 ∧
    (∀ m maxW, wrapByWidth m [] maxW = []) := by
  have hwrapped :
      (fitFontBinaryTable M [] colL colR maxH minPx maxPx gap fnt0).wrapped = [] := by
    have h := @tableLoop_empty_rows M colL colR gap maxH minPx maxPx none fnt0
      (by intro r hr; simp at hr)
    rw [fitFontBinaryTable]
    rcases hres : tableLoop M [] colL colR gap maxH minPx maxPx none fnt0 with ⟨res, fnt⟩
    cases res with
    | none => simp
    | some r =>
      have := h r (by rw [hres])
      simpa using this
  refine ⟨hwrapped, ?_, fun m maxW => by simp [wrapByWidth]⟩
  rw [resultTotalHeight, hwrapped]
  simp

/-- C2 counterexample: on the all-infeasible path the fallback records
`rowH = max(1, max(#leftLines, #rightLines))` — a bare line count — instead
of a pixel row height.  With the 1px/char measurer, one row
`("ab", "cd")`, column widths 100, `maxHeight = 0`, bounds `[9, 10]`,
`lineGap = 1.15`, no size fits, and the returned row has `rowH = 1`
although a height computed at `minSize` would be
`max(#left, #right) * ceil(9 * 1.15) = 11`. -/
theorem C2_counterexample :
    fitFontBinaryTable lenMeasurer [⟨"ab".toList, "cd".toList⟩] 100 100 0 9 10
        (mkRat 23 20) ⟨700, 50⟩ =
      ⟨9, 11, [⟨["ab".toList], ["cd".toList], 1⟩]⟩ ∧
    (1 : ℤ) * lineHeightAt (mkRat 23 20) 9 = 11 ∧ (1 : ℤ) ≠ 11 := by
  refine ⟨?_, by with_unfolding_all decide, by decide⟩
  simp [fitFontBinaryTable, tableLoop, tableFeasible]
  with_unfolding_all decide

/-- C2 amended: for a non-empty row list and a non-empty size range on which
no size is feasible, the table fitter returns font size exactly `minSize`
and line height `ceil(minSize * lineGap)`, with both columns of every row
wrapped at regular weight and size `minSize` (the `ctx.font` left by the
loop's final `minSize` probe — the fallback itself never sets a font), and
with each row's recorded `rowH` equal to
`max(1, max(#leftLines, #rightLines))`, a line count rather than a pixel
height, with no gap subtraction applied. -/
theorem C2_table_fitter_fallback (M : Measurer) (rows : List Row)
    (colL colR : ℚ) (maxH : ℤ) (minPx maxPx : Nat) (gap : ℚ) (fnt0 : FontSpec)
    (hrows : rows ≠ []) (hmm : minPx ≤ maxPx)
    (hinf : ∀ s ∈ Finset.Icc minPx maxPx,
      tableFeasible M rows colL colR gap maxH s = false) :
    fitFontBinaryTable M rows colL colR maxH minPx maxPx gap fnt0 =
      ⟨minPx, lineHeightAt gap minPx,
        rows.map (fallbackRowAt M colL colR ⟨400, minPx⟩)⟩ := by
  have h := @tableLoop_all_infeasible M rows colL colR gap maxH minPx maxPx none fnt0
    hrows hmm (fun s h1 h2 => hinf s (Finset.mem_Icc.mpr ⟨h1, h2⟩))
  rw [fitFontBinaryTable, h]

theorem C2_witness :
    ([⟨"ab".toList, "cd".toList⟩] : List Row) ≠ [] ∧ (9 : Nat) ≤ 10 ∧
    (∀ s ∈ Finset.Icc 9 10,
      tableFeasible lenMeasurer [⟨"ab".toList, "cd".toList⟩] 100 100 (mkRat 23 20) 0 s
        = false) ∧
    fitFontBinaryTable lenMeasurer [⟨"ab".toList, "cd".toList⟩] 100 100 0 9 10
        (mkRat 23 20) ⟨700, 50⟩ =
      ⟨9, lineHeightAt (mkRat 23 20) 9,
        ([⟨"ab".toList, "cd".toList⟩] : List Row).map
          (fallbackRowAt lenMeasurer 100 100 ⟨400, 9⟩)⟩ := by
  have h3 : ∀ s ∈ Finset.Icc 9 10,
      tableFeasible lenMeasurer [⟨"ab".toList, "cd".toList⟩] 100 100 (mkRat 23 20) 0 s
        = false := by
    with_unfolding_all decide
  exact ⟨by decide, by decide, h3,
    C2_table_fitter_fallback lenMeasurer [⟨"ab".toList, "cd".toList⟩] 100 100 0 9 10
      (mkRat 23 20) ⟨700, 50⟩ (by decide) (by decide) h3⟩

/-- C5: the parser block of `drawOne` produces exactly the claim's content
model: with `L` the raw text's lines (carriage returns removed, split on
newlines, trimmed, blank lines dropped), the title is the first entry of
`L` (or empty), the subtitle the second (or empty), and the pairs are the
remainder of `L` chunked two at a time in order — an odd tail becoming a
`(key, "")` pair — keeping a pair whenever either side is non-empty. -/
theorem C5_parser_matches_claim (text : Str) :
    parseContent text =
      ⟨(contentLines text).headD [], ((contentLines text).drop 1).headD [],
        pairsSpec ((contentLines text).drop 2)⟩ := by
  rw [parseContent]
  simp [collectPairs_eq_pairsSpec]

end JobImage
